import Mathlib

/-!
Verification of the RAG ingestion/retrieval pipeline
(auto_chunker.py, build_index.py, rag_query.py, rag_utils.py, llm_utils.py).

The Python code is shallowly embedded: file contents are strings (lists of
characters), per-file chunkers are pure functions from content to chunk
lists, fallible operations are `Except`/`Option` valued, and the external
services (embedding model, vector store, LLM endpoint) are abstract
parameters.
-/

namespace RagPipeline

/-- Whitespace predicate matching Python's `str.strip()` / regex `\s` on the
ASCII range: space, tab, newline, carriage return, vertical tab, form feed. -/
def pyIsSpace (c : Char) : Bool :=
  c = ' ' || c = '\t' || c = '\n' || c = '\r' || c = '\x0b' || c = '\x0c'

/-- Python `str.strip()` on a character list: drop whitespace from the left,
then from the right. -/
def stripList (cs : List Char) : List Char :=
  (cs.dropWhile pyIsSpace).rdropWhile pyIsSpace

/-- Python `str.strip()` on strings. -/
def pyStrip (s : String) : String :=
  String.mk (stripList s.data)

/-- One retrievable unit: the dict `{'text': ..., 'source': ..., 'type': ...}`
built by every chunker in auto_chunker.py. -/
structure Chunk where
  text : String
  source : String
  type : String
deriving DecidableEq, Repr

/-- A parsed notebook cell as seen by `chunk_ipynb` (nbformat gives each cell
a `cell_type` tag and a `source` string). -/
structure Cell where
  cell_type : String
  source : String
deriving DecidableEq, Repr

/-! ### Lemmas about `stripList` -/

theorem stripList_eq_nil_iff (cs : List Char) :
    stripList cs = [] ↔ ∀ c ∈ cs, pyIsSpace c = true := by
  unfold stripList
  rw [List.rdropWhile_eq_nil_iff]
  constructor
  · intro h c hc
    have hsplit := List.takeWhile_append_dropWhile pyIsSpace cs
    rw [← hsplit] at hc
    rcases List.mem_append.mp hc with h1 | h2
    · exact List.mem_takeWhile_imp h1
    · exact h c h2
  · intro h c hc
    exact h c (List.dropWhile_sublist pyIsSpace |>.mem hc)

theorem stripList_idem (cs : List Char) : stripList (stripList cs) = stripList cs := by
  have hdropX : (stripList cs).dropWhile pyIsSpace = stripList cs := by
    rcases hXnil : stripList cs with _ | ⟨a, t⟩
    · rfl
    · have hpre : stripList cs <+: cs.dropWhile pyIsSpace :=
        List.rdropWhile_prefix pyIsSpace (cs.dropWhile pyIsSpace)
      rw [hXnil] at hpre
      rcases hpre with ⟨tl, htl⟩
      have hne : cs.dropWhile pyIsSpace ≠ [] := by
        rw [← htl]; simp
      have hpa : pyIsSpace ((cs.dropWhile pyIsSpace).head hne) = false :=
        List.head_dropWhile_not pyIsSpace cs hne
      have hhead : (cs.dropWhile pyIsSpace).head hne = a := by
        have : cs.dropWhile pyIsSpace = a :: (t ++ tl) := by rw [← htl]; simp
        simp [this]
      rw [hhead] at hpa
      simp [List.dropWhile_cons, hpa]
  show ((stripList cs).dropWhile pyIsSpace).rdropWhile pyIsSpace = stripList cs
  rw [hdropX]
  show List.rdropWhile pyIsSpace (List.rdropWhile pyIsSpace (cs.dropWhile pyIsSpace))
      = stripList cs
  rw [List.rdropWhile_idempotent]
  rfl

theorem pyStrip_mk_stripList (cs : List Char) :
    pyStrip (String.mk (stripList cs)) = String.mk (stripList cs) := by
  unfold pyStrip
  rw [show (String.mk (stripList cs)).data = stripList cs from rfl, stripList_idem]

/-- Dropping a trailing whitespace character does not change `stripList`. -/
theorem stripList_append_ws (cs : List Char) (c : Char) (h : pyIsSpace c = true) :
    stripList (cs ++ [c]) = stripList cs := by
  unfold stripList
  rcases hdrop : cs.dropWhile pyIsSpace with _ | ⟨a, t⟩
  · have hall : ∀ x ∈ cs, pyIsSpace x = true := by
      intro x hx
      have hsplit := List.takeWhile_append_dropWhile pyIsSpace cs
      rw [← hsplit] at hx
      rcases List.mem_append.mp hx with h1 | h2
      · exact List.mem_takeWhile_imp h1
      · rw [hdrop] at h2; simp at h2
    have h1 : (cs ++ [c]).dropWhile pyIsSpace = [] := by
      rw [List.dropWhile_eq_nil_iff]
      intro x hx
      rcases List.mem_append.mp hx with h1 | h2
      · exact hall x h1
      · simp at h2; subst h2; exact h
    rw [h1]
  · have h1 : (cs ++ [c]).dropWhile pyIsSpace = (a :: t) ++ [c] := by
      have hsplit := List.takeWhile_append_dropWhile pyIsSpace cs
      calc (cs ++ [c]).dropWhile pyIsSpace
          = ((cs.takeWhile pyIsSpace ++ cs.dropWhile pyIsSpace) ++ [c]).dropWhile pyIsSpace := by
            rw [hsplit]
        _ = (cs.takeWhile pyIsSpace ++ ((a :: t) ++ [c])).dropWhile pyIsSpace := by
            rw [hdrop]; simp
        _ = (a :: t) ++ [c] := by
            rw [List.dropWhile_append]
            have hta : (cs.takeWhile pyIsSpace).dropWhile pyIsSpace = [] := by
              rw [List.dropWhile_eq_nil_iff]
              intro x hx; exact List.mem_takeWhile_imp hx
            have hd : cs.dropWhile pyIsSpace ≠ [] := by rw [hdrop]; simp
            have ha : pyIsSpace ((cs.dropWhile pyIsSpace).head hd) = false :=
              List.head_dropWhile_not pyIsSpace cs hd
            have ha' : pyIsSpace a = false := by
              have : (cs.dropWhile pyIsSpace).head hd = a := by simp [hdrop]
              rwa [this] at ha
            simp [hta, List.dropWhile_cons, ha']
    rw [h1]
    have hstep : ((a :: t) ++ [c]).rdropWhile pyIsSpace = (a :: t).rdropWhile pyIsSpace :=
      List.rdropWhile_concat_pos pyIsSpace (a :: t) c (by simpa using h)
    rw [hstep]

/-! ### Splitting file content into lines (keeping the newline terminators)

`re` with `MULTILINE` lets `^` match at position 0 and right after every
newline; splitting the character stream into terminator-keeping lines makes
those positions exactly the line starts. -/

def linesKeepNLGo (acc : List Char) : List Char → List (List Char)
  | [] => if acc = [] then [] else [acc]
  | c :: cs =>
    if c = '\n' then (acc ++ [c]) :: linesKeepNLGo [] cs
    else linesKeepNLGo (acc ++ [c]) cs

def linesKeepNL (cs : List Char) : List (List Char) := linesKeepNLGo [] cs

/-! ### chunk_py (auto_chunker.py lines 18-39)

`re.split(r'(?=^def |^class )', content, flags=re.MULTILINE)` cuts the
content before every line that starts with `def ` or `class ` at column 0;
the zero-width lookahead keeps the boundary line in the following segment.
Each segment is stripped, empty segments are dropped, and the rest are
classified by their (stripped) leading characters. -/

def isBoundaryLine (l : List Char) : Bool :=
  "def ".data.isPrefixOf l || "class ".data.isPrefixOf l

/-- Group terminator-keeping lines into the segments produced by the
lookahead split: a new segment begins at every boundary line. The leading
segment (before the first boundary) may be empty, matching `re.split`'s
leading `''`. -/
def groupBlocksGo (cur : List Char) : List (List Char) → List (List Char)
  | [] => [cur]
  | l :: rest =>
    if isBoundaryLine l then cur :: groupBlocksGo l rest
    else groupBlocksGo (cur ++ l) rest

def pySplitBlocks (cs : List Char) : List (List Char) :=
  groupBlocksGo [] (linesKeepNL cs)

/-- The loop body of `chunk_py`: strip a segment, drop it when empty, and
classify the leading characters of the stripped text. -/
def pyBlockChunk (file_path : String) (b : List Char) : Option Chunk :=
  let b' := stripList b
  if b' = [] then none
  else
    some { text := String.mk b'
           source := file_path
           type :=
             if "def ".data.isPrefixOf b' then "function"
             else if "class ".data.isPrefixOf b' then "class"
             else "top-level" }

/-- `chunk_py`, with the file content passed in place of the file read. -/
def chunk_py (file_path : String) (content : String) : List Chunk :=
  (pySplitBlocks content.data).filterMap (pyBlockChunk file_path)

/-! ### chunk_ipynb (auto_chunker.py lines 5-16)

One chunk per notebook cell, the cell source taken verbatim (no stripping,
no emptiness filter). -/

/-- `chunk_ipynb`, with the parsed notebook cells in place of the file read. -/
def chunk_ipynb (file_path : String) (cells : List Cell) : List Chunk :=
  cells.map fun cell =>
    { text := cell.source, source := file_path, type := cell.cell_type }

/-! ### The `\n\s*\n` blank-run matcher shared by chunk_md and chunk_pdf

At a position holding `'\n'`, the regex `\n\s*\n` matches iff the maximal
whitespace run following that newline contains another newline; greedy
matching with backtracking makes the match end right after the last newline
of that run. `matchBlank` returns the remainder of the input after such a
match, or `none`. -/

def afterLastNL : List Char → Option (List Char)
  | [] => none
  | c :: cs =>
    match afterLastNL cs with
    | some r => some r
    | none => if c = '\n' then some cs else none

def matchBlank (cs : List Char) : Option (List Char) :=
  match afterLastNL (cs.takeWhile pyIsSpace) with
  | some r => some (r ++ cs.drop (cs.takeWhile pyIsSpace).length)
  | none => none

/-- The split machine for `re.split(r'\n\s*\n|^#', content, re.MULTILINE)`
(and, with `useHash = false`, for `re.split(r'\n\s*\n', text)` in
`chunk_pdf`). `atStart` records whether the current position is at the
start of a line (position 0 or right after a newline), which is where `^#`
may match; the fuel argument dominates the remaining input length so the
recursion is structural. -/
def splitGoF (useHash : Bool) : Nat → Bool → List Char → List Char → List (List Char)
  | 0, _, acc, _ => [acc]
  | _ + 1, _, acc, [] => [acc]
  | f + 1, atStart, acc, c :: cs =>
    if useHash && atStart && c = '#' then
      acc :: splitGoF useHash f false [] cs
    else if c = '\n' then
      match matchBlank cs with
      | some rest => acc :: splitGoF useHash f true [] rest
      | none => splitGoF useHash f true (acc ++ [c]) cs
    else splitGoF useHash f false (acc ++ [c]) cs

def mdSplit (cs : List Char) : List (List Char) :=
  splitGoF true cs.length true [] cs

def pdfSplit (cs : List Char) : List (List Char) :=
  splitGoF false cs.length true [] cs

/-! ### chunk_md (auto_chunker.py lines 41-54) -/

/-- `chunk_md`, with the file content passed in place of the file read. -/
def chunk_md (file_path : String) (content : String) : List Chunk :=
  (mdSplit content.data).filterMap fun b =>
    let b' := stripList b
    if b' = [] then none
    else some { text := String.mk b', source := file_path, type := "markdown" }

/-! ### chunk_pdf (auto_chunker.py lines 56-77)

Text extraction is external (PyPDF2); the embedding takes the per-page
extraction results. A page contributing `None` or `""` is skipped
(`if page_text:`), other pages are concatenated with a trailing newline
each. Paragraphs are the `\n\s*\n`-separated pieces; a stripped paragraph
is kept iff its length exceeds 30. -/

def pdfConcat (pages : List (Option String)) : List Char :=
  pages.foldl
    (fun acc p =>
      match p with
      | some t => if t.data = [] then acc else acc ++ t.data ++ ['\n']
      | none => acc)
    []

/-- `chunk_pdf`, with the per-page extraction results in place of the file
read. -/
def chunk_pdf (file_path : String) (pages : List (Option String)) : List Chunk :=
  (pdfSplit (pdfConcat pages)).filterMap fun para =>
    let p' := stripList para
    if p'.length > 30 then
      some { text := String.mk p', source := file_path, type := "pdf" }
    else none

/-! ### auto_chunk_folder (auto_chunker.py lines 79-104)

The directory walk is embedded as the traversal-ordered list of
`(file path, read outcome)` pairs. A read outcome carries the decoded
content handed to the per-file chunker (text for `.py`/`.md`, parsed cells
for `.ipynb`, per-page extraction results for `.pdf`); `Except.error`
stands for the per-file exception that the `try/except` around each
chunker call catches (logging and contributing nothing). -/

inductive FileData where
  | textData (content : String)
  | nbData (cells : List Cell)
  | pdfData (pages : List (Option String))
deriving Repr

/-- The chunks one walked file contributes: dispatch on the file extension
exactly as the `elif` chain does, apply the matching chunker to a
successful read, and contribute nothing on a caught per-file exception or
an unsupported extension. -/
def fileChunks (entry : String × Except String FileData) : List Chunk :=
  let (file_path, r) := entry
  if file_path.endsWith ".ipynb" then
    match r with
    | .ok (.nbData cells) => chunk_ipynb file_path cells
    | _ => []
  else if file_path.endsWith ".py" then
    match r with
    | .ok (.textData content) => chunk_py file_path content
    | _ => []
  else if file_path.endsWith ".md" then
    match r with
    | .ok (.textData content) => chunk_md file_path content
    | _ => []
  else if file_path.endsWith ".pdf" then
    match r with
    | .ok (.pdfData pages) => chunk_pdf file_path pages
    | _ => []
  else []

/-- `auto_chunk_folder`: `all_chunks` starts empty and each walked file
extends it in traversal order. -/
def auto_chunk_folder (files : List (String × Except String FileData)) : List Chunk :=
  files.foldl (fun all_chunks entry => all_chunks ++ fileChunks entry) []

/-! ### The chunk log (auto_chunker.py lines 111-113, build_index.py lines 10-12)

The writer emits `json.dumps(chunk, ensure_ascii=False) + "\n"` per chunk;
`json.dumps` escapes `"`, `\` and all control characters below 0x20 (with
the short escapes `\n \r \t \b \f` where JSON has them), so one record
occupies exactly one line. The reader iterates the file's lines and
`json.loads` each; the parser below is `json.loads` restricted to the one
object shape the writer produces, with the full JSON string-escape
grammar, and rejects raw control characters inside strings just as the
strict default of `json.loads` does. -/

def hexDigitChar (n : Nat) : Char :=
  if n < 10 then Char.ofNat (48 + n) else Char.ofNat (87 + n)

/-- The escaping `json.dumps` applies to one character of a string value
(`ensure_ascii=False`: non-ASCII characters pass through unescaped). -/
def escChar (c : Char) : List Char :=
  if c = '"' then ['\\', '"']
  else if c = '\\' then ['\\', '\\']
  else if c = '\n' then ['\\', 'n']
  else if c = '\r' then ['\\', 'r']
  else if c = '\t' then ['\\', 't']
  else if c = '\x08' then ['\\', 'b']
  else if c = '\x0c' then ['\\', 'f']
  else if c.toNat < 32 then
    ['\\', 'u', '0', '0', hexDigitChar (c.toNat / 16), hexDigitChar (c.toNat % 16)]
  else [c]

def escString (cs : List Char) : List Char :=
  cs.foldr (fun c r => escChar c ++ r) []

/-- `json.dumps({'text': ..., 'source': ..., 'type': ...}, ensure_ascii=False)`:
Python dicts keep insertion order, and the default separators are `", "`
and `": "`. -/
def serChunk (c : Chunk) : List Char :=
  "\x7b\"text\": \"".data ++ escString c.text.data
    ++ "\", \"source\": \"".data ++ escString c.source.data
    ++ "\", \"type\": \"".data ++ escString c.type.data
    ++ "\"\x7d".data

/-- The chunk log as written by the `__main__` block of auto_chunker.py. -/
def writeChunks (chunks : List Chunk) : List Char :=
  (chunks.map (fun c => serChunk c ++ ['\n'])).flatten

def unhex (c : Char) : Option Nat :=
  if '0' ≤ c && c ≤ '9' then some (c.toNat - 48)
  else if 'a' ≤ c && c ≤ 'f' then some (c.toNat - 87)
  else if 'A' ≤ c && c ≤ 'F' then some (c.toNat - 55)
  else none

/-- The decoded character for a single-letter JSON escape `\<e>`. -/
def escTable (e : Char) : Option Char :=
  if e = '"' then some '"'
  else if e = '\\' then some '\\'
  else if e = '/' then some '/'
  else if e = 'n' then some '\n'
  else if e = 'r' then some '\r'
  else if e = 't' then some '\t'
  else if e = 'b' then some '\x08'
  else if e = 'f' then some '\x0c'
  else none

/-- Parse a JSON string body up to and including the closing quote,
returning the decoded content and the rest of the input. Implements the
JSON string grammar as `json.loads` (strict mode) does: the escapes
`\" \\ \/ \b \f \n \r \t \uXXXX`, and a hard error on raw control
characters below 0x20. -/
def parseStrBody : List Char → Option (List Char × List Char)
  | [] => none
  | c :: rest =>
    if c = '"' then some ([], rest)
    else if c = '\\' then
      match rest with
      | [] => none
      | e :: rest2 =>
        if e = 'u' then
          match rest2 with
          | h1 :: h2 :: h3 :: h4 :: rest3 => do
            let a ← unhex h1
            let b ← unhex h2
            let c3 ← unhex h3
            let d ← unhex h4
            let (s, r) ← parseStrBody rest3
            pure (Char.ofNat (a * 4096 + b * 256 + c3 * 16 + d) :: s, r)
          | _ => none
        else
          match escTable e with
          | some ch => do
            let (s, r) ← parseStrBody rest2
            pure (ch :: s, r)
          | none => none
    else if c.toNat < 32 then none
    else do
      let (s, r) ← parseStrBody rest
      pure (c :: s, r)

/-- Consume an expected literal piece of the record syntax. -/
def expectLit (pat : List Char) (cs : List Char) : Option (List Char) :=
  if pat.isPrefixOf cs then some (cs.drop pat.length) else none

/-- `json.loads` of one chunk-log line (restricted to the record shape the
writer emits); trailing whitespace, such as the line's newline terminator,
is permitted after the closing brace. -/
def parseChunkLine (line : List Char) : Option Chunk := do
  let r1 ← expectLit "\x7b\"text\": \"".data line
  let (t, r2) ← parseStrBody r1
  let r3 ← expectLit ", \"source\": \"".data r2
  let (s, r4) ← parseStrBody r3
  let r5 ← expectLit ", \"type\": \"".data r4
  let (ty, r6) ← parseStrBody r5
  let r7 ← expectLit "\x7d".data r6
  if r7.all pyIsSpace then
    pure { text := String.mk t, source := String.mk s, type := String.mk ty }
  else none

/-- The chunk-log reader of build_index.py: iterate the file's lines
(Python's line iteration splits after every newline) and `json.loads`
each; a malformed line raises, collapsing the whole read to `none`. -/
def readChunks (file : List Char) : Option (List Chunk) :=
  (linesKeepNL file).mapM parseChunkLine

/-! ### The indexing batch loop (build_index.py lines 19-31)

`range(0, len(chunks), batch_size)` yields the global start offset of each
batch; the records inserted for a batch pair `chunk_<start+j>` with the
j-th chunk of the batch, its embedding, its text and its
`{source, type}` metadata. The embedding function is an abstract
per-text map (`SentenceTransformer.encode` maps each text of the batch
independently and deterministically). -/

structure IndexRecord (E : Type) where
  id : String
  embedding : E
  document : String
  source : String
  type : String
deriving DecidableEq, Repr

def mkIndexRecord (embed : String → E) (g : Nat) (c : Chunk) : IndexRecord E :=
  { id := "chunk_" ++ toString g
    embedding := embed c.text
    document := c.text
    source := c.source
    type := c.type }

/-- All records inserted by one indexing run over `chunks` with batch size
`b`, in insertion order. -/
def indexRun (embed : String → E) (chunks : List Chunk) (b : Nat) : List (IndexRecord E) :=
  ((List.range' 0 ((chunks.length + b - 1) / b) b).map fun i =>
    ((chunks.drop i).take b).enum.map fun jc => mkIndexRecord embed (i + jc.1) jc.2).flatten

/-! ### The Context Assembler (rag_query.py lines 25-31, rag_utils.py lines 17-22)

Retrieval hands back parallel lists `docs` and `metadatas`; the assembler
zips them, renders block `i` (1-based) as
`[i] (type) Source: source\n<doc>\n`, joins the blocks with `"\n"` (each
block already ends in a newline, so consecutive blocks are separated by a
blank line), and builds the parallel citation list `[i] source` from the
metadatas. `meta.get('type', 'unknown')` is modeled by an optional type
field. -/

structure Meta where
  source : String
  type : Option String
deriving DecidableEq, Repr

def metaType (m : Meta) : String := m.type.getD "unknown"

def contextBlocks (docs : List String) (metadatas : List Meta) : List String :=
  ((docs.zip metadatas).enumFrom 1).map fun idm =>
    "[" ++ toString idm.1 ++ "] (" ++ metaType idm.2.2 ++ ") Source: "
      ++ idm.2.2.source ++ "\n" ++ idm.2.1 ++ "\n"

def citationList (metadatas : List Meta) : List String :=
  (metadatas.enumFrom 1).map fun im =>
    "[" ++ toString im.1 ++ "] " ++ im.2.source

/-- The value `retrieve_context` (rag_query.py) returns once the vector
store has produced `docs` and `metadatas`: the joined context block and
the joined citation list. -/
def retrieve_context_render (docs : List String) (metadatas : List Meta) :
    String × String :=
  (String.intercalate "\n" (contextBlocks docs metadatas),
   String.intercalate "\n" (citationList metadatas))

/-! ### lmstudio_inference (llm_utils.py lines 9-19)

The external chat-completion call either produces a response object or
raises; everything inside the `try` (including the `choices[0]` indexing)
is covered by the `except`, which formats the exception into an error
string returned as data. -/

structure LMMessage where
  content : String

structure LMChoice where
  message : LMMessage

structure LMResponse where
  choices : List LMChoice

/-- `lmstudio_inference`, with the outcome of the external call passed in:
`Except.error e` is a raised exception whose string form is `e`. An
empty `choices` list makes `response.choices[0]` raise an `IndexError`,
which the same handler catches. -/
def lmstudio_inference (call : Except String LMResponse) : String :=
  match call with
  | .error e => "Error parsing response: " ++ e
  | .ok resp =>
    match resp.choices.head? with
    | some choice => choice.message.content
    | none => "Error parsing response: list index out of range"

/-! ## Claim theorems -/

/-! ### C9: inference errors are returned as data -/

/-- C9: for every behaviour of the external inference service,
`lmstudio_inference` returns a string rather than propagating an
exception: the completion text on success (first choice), and the
human-readable error string `"Error parsing response: <e>"` when the call
(or the `choices[0]` access) raises. -/
theorem lmstudio_inference_soft_failure (call : Except String LMResponse) :
    (∀ e, call = .error e →
      lmstudio_inference call = "Error parsing response: " ++ e) ∧
    (∀ resp choice rest, call = .ok resp → resp.choices = choice :: rest →
      lmstudio_inference call = choice.message.content) ∧
    (∀ resp, call = .ok resp → resp.choices = [] →
      lmstudio_inference call = "Error parsing response: list index out of range") := by
  refine ⟨?_, ?_, ?_⟩
  · intro e he; subst he; rfl
  · intro resp choice rest hc hch; subst hc
    simp [lmstudio_inference, hch]
  · intro resp hc hch; subst hc
    simp [lmstudio_inference, hch]

theorem lmstudio_inference_soft_failure_witness :
    lmstudio_inference (.error "connection refused")
        = "Error parsing response: connection refused" ∧
    lmstudio_inference (.ok ⟨[⟨⟨"the answer"⟩⟩]⟩) = "the answer" :=
  ⟨(lmstudio_inference_soft_failure (.error "connection refused")).1 _ rfl,
   (lmstudio_inference_soft_failure (.ok ⟨[⟨⟨"the answer"⟩⟩]⟩)).2.1 _ _ [] rfl rfl⟩

/-! ### C8: per-file failures do not abort or pollute the folder walk -/

theorem fileChunks_error (p : String) (e : String) :
    fileChunks (p, Except.error e) = [] := by
  unfold fileChunks
  dsimp only
  split <;> [rfl; skip]
  split <;> [rfl; skip]
  split <;> [rfl; skip]
  split <;> rfl

theorem auto_chunk_folder_eq_flatten (files : List (String × Except String FileData)) :
    auto_chunk_folder files = (files.map fileChunks).flatten := by
  unfold auto_chunk_folder
  suffices h : ∀ acc, files.foldl (fun all_chunks entry => all_chunks ++ fileChunks entry) acc
      = acc ++ (files.map fileChunks).flatten by
    simpa using h []
  induction files with
  | nil => intro acc; simp
  | cons f fs ih =>
    intro acc
    simp only [List.foldl_cons, List.map_cons, List.flatten_cons]
    rw [ih]
    simp

/-- C8: a file whose chunker raises (caught per file) contributes nothing,
while the walk continues: the aggregate output is exactly the
concatenation, in traversal order, of what the files before and after it
contribute. -/
theorem auto_chunk_folder_isolates_failure
    (pre post : List (String × Except String FileData)) (p e : String) :
    auto_chunk_folder (pre ++ (p, Except.error e) :: post)
      = auto_chunk_folder pre ++ auto_chunk_folder post := by
  rw [auto_chunk_folder_eq_flatten, auto_chunk_folder_eq_flatten,
    auto_chunk_folder_eq_flatten]
  simp [fileChunks_error p e]

/-! ### C7: the PDF paragraph length threshold -/

theorem chunk_pdf_text_long (path : String) (pages : List (Option String)) :
    ∀ c ∈ chunk_pdf path pages, 30 < c.text.data.length := by
  intro c hc
  unfold chunk_pdf at hc
  rcases List.mem_filterMap.mp hc with ⟨para, _, hf⟩
  by_cases hlen : (stripList para).length > 30
  · simp only [hlen, if_pos] at hf
    cases hf
    simpa using hlen
  · simp [hlen] at hf

/-- C7: an extracted paragraph is kept by `chunk_pdf` (as its stripped
text) iff its stripped length exceeds 30 characters; paragraphs of at most
30 characters are discarded. -/
theorem chunk_pdf_threshold (path : String) (pages : List (Option String))
    (para : List Char) (hmem : para ∈ pdfSplit (pdfConcat pages)) :
    (∃ c ∈ chunk_pdf path pages, c.text = String.mk (stripList para))
      ↔ 30 < (stripList para).length := by
  constructor
  · rintro ⟨c, hc, htext⟩
    have := chunk_pdf_text_long path pages c hc
    rw [htext] at this
    simpa using this
  · intro hlen
    refine ⟨{ text := String.mk (stripList para), source := path, type := "pdf" },
      ?_, rfl⟩
    unfold chunk_pdf
    apply List.mem_filterMap.mpr
    exact ⟨para, hmem, by simp [hlen]⟩

theorem chunk_pdf_threshold_witness :
    ("This paragraph is long enough to keep!\n".data
        ∈ pdfSplit (pdfConcat [some "This paragraph is long enough to keep!"])) ∧
    (∃ c ∈ chunk_pdf "d.pdf" [some "This paragraph is long enough to keep!"],
      c.text = String.mk (stripList "This paragraph is long enough to keep!\n".data)) :=
  ⟨by decide,
   (chunk_pdf_threshold "d.pdf" [some "This paragraph is long enough to keep!"]
      "This paragraph is long enough to keep!\n".data (by decide)).mpr (by decide)⟩

/-! ### C1: chunk text is non-empty after trimming — except for notebooks

`chunk_py`, `chunk_md` and `chunk_pdf` strip each segment and drop the
blank ones, so their chunks stay non-empty after trimming. `chunk_ipynb`
copies every cell's source verbatim, so an empty or whitespace-only
notebook cell becomes a chunk whose trimmed text is empty — the
counterexample below. -/

/-- The claim is false for `chunk_ipynb`: a whitespace-only cell is
emitted as a chunk whose text is empty after trimming. -/
theorem chunk_ipynb_blank_chunk :
    ∃ c ∈ chunk_ipynb "nb.ipynb" [{ cell_type := "code", source := "  " }],
      stripList c.text.data = [] := by
  refine ⟨{ text := "  ", source := "nb.ipynb", type := "code" }, by decide, by decide⟩

/-- C1 (amended): every chunk produced by `chunk_py`, `chunk_md` and
`chunk_pdf` has text that is non-empty after trimming whitespace;
`chunk_ipynb` instead emits one chunk per cell whose text is exactly the
cell's source, which may be empty or whitespace-only. -/
theorem chunker_text_nonblank :
    (∀ p s, ∀ c ∈ chunk_py p s, stripList c.text.data ≠ []) ∧
    (∀ p s, ∀ c ∈ chunk_md p s, stripList c.text.data ≠ []) ∧
    (∀ p pages, ∀ c ∈ chunk_pdf p pages, stripList c.text.data ≠ []) ∧
    (∀ p cells, (chunk_ipynb p cells).map Chunk.text = cells.map Cell.source) := by
  refine ⟨?_, ?_, ?_, ?_⟩
  · intro p s c hc
    unfold chunk_py at hc
    rcases List.mem_filterMap.mp hc with ⟨b, _, hf⟩
    unfold pyBlockChunk at hf
    by_cases hb : stripList b = []
    · simp [hb] at hf
    · simp only [hb, if_neg] at hf
      cases hf
      show stripList (String.mk (stripList b)).data ≠ []
      rw [show (String.mk (stripList b)).data = stripList b from rfl, stripList_idem]
      exact hb
  · intro p s c hc
    unfold chunk_md at hc
    rcases List.mem_filterMap.mp hc with ⟨b, _, hf⟩
    by_cases hb : stripList b = []
    · simp [hb] at hf
    · simp only [hb, if_neg] at hf
      cases hf
      show stripList (String.mk (stripList b)).data ≠ []
      rw [show (String.mk (stripList b)).data = stripList b from rfl, stripList_idem]
      exact hb
  · intro p pages c hc
    have hlong := chunk_pdf_text_long p pages c hc
    unfold chunk_pdf at hc
    rcases List.mem_filterMap.mp hc with ⟨b, _, hf⟩
    by_cases hb : (stripList b).length > 30
    · simp only [hb, if_pos] at hf
      cases hf
      show stripList (String.mk (stripList b)).data ≠ []
      rw [show (String.mk (stripList b)).data = stripList b from rfl, stripList_idem]
      intro hnil
      rw [hnil] at hb
      simp at hb
    · simp [hb] at hf
  · intro p cells
    unfold chunk_ipynb
    rw [List.map_map]
    rfl

theorem chunker_text_nonblank_witness :
    stripList (Chunk.text { text := "x = 1", source := "a.py", type := "top-level" }).data
      ≠ [] :=
  chunker_text_nonblank.1 "a.py" "x = 1"
    { text := "x = 1", source := "a.py", type := "top-level" } (by decide)

/-! ### C5: the Context Assembler's rendering and citations -/

/-- C5: the i-th retrieved (document, metadata) pair (1-based) is rendered
as the block `[i] (type) Source: source\n<text>\n`, the parallel citation
list carries `[i] source` in the same order, and the two-result example of
the spec renders literally as stated, the blocks joined by a blank line. -/
theorem context_assembler_spec :
    (∀ (docs : List String) (metadatas : List Meta) (i : Nat) (d : String) (m : Meta),
      (docs.zip metadatas)[i]? = some (d, m) →
      (contextBlocks docs metadatas)[i]?
        = some ("[" ++ toString (i + 1) ++ "] (" ++ metaType m ++ ") Source: "
            ++ m.source ++ "\n" ++ d ++ "\n")) ∧
    (∀ (metadatas : List Meta) (i : Nat) (m : Meta),
      metadatas[i]? = some m →
      (citationList metadatas)[i]? = some ("[" ++ toString (i + 1) ++ "] " ++ m.source)) ∧
    (retrieve_context_render ["T1", "T2"]
        [{ source := "a.py", type := some "function" },
         { source := "b.md", type := some "markdown" }]
      = ("[1] (function) Source: a.py\nT1\n" ++ "\n" ++ "[2] (markdown) Source: b.md\nT2\n",
         "[1] a.py" ++ "\n" ++ "[2] b.md") ∧
     citationList
        [{ source := "a.py", type := some "function" },
         { source := "b.md", type := some "markdown" }]
      = ["[1] a.py", "[2] b.md"]) := by
  refine ⟨?_, ?_, by decide, by decide⟩
  · intro docs metadatas i d m hzip
    unfold contextBlocks
    rw [List.getElem?_map, List.getElem?_enumFrom, hzip]
    simp [Nat.add_comm]
  · intro metadatas i m hm
    unfold citationList
    rw [List.getElem?_map, List.getElem?_enumFrom, hm]
    simp [Nat.add_comm]

theorem context_assembler_spec_witness :
    (citationList [{ source := "a.py", type := some "function" }])[0]?
      = some ("[" ++ toString 1 ++ "] " ++ "a.py") :=
  context_assembler_spec.2.1 [{ source := "a.py", type := some "function" }] 0
    { source := "a.py", type := some "function" } (by decide)

/-! ### Decimal representation facts (for chunk-id uniqueness)

`f"chunk_{g}"` appends Python's decimal rendering of `g`, which agrees
with `toString (g : Nat)` (`Nat.repr`); injectivity of that rendering is
what makes the ids pairwise distinct. -/

theorem toDigitsCore_acc (b : Nat) :
    ∀ (f n : Nat) (acc : List Char),
      Nat.toDigitsCore b f n acc = Nat.toDigitsCore b f n [] ++ acc := by
  intro f
  induction f with
  | zero => intro n acc; rfl
  | succ f ih =>
    intro n acc
    simp only [Nat.toDigitsCore]
    by_cases h : n / b = 0
    · simp [h]
    · simp only [h, ite_false]
      rw [ih (n / b) ((n % b).digitChar :: acc), ih (n / b) [(n % b).digitChar]]
      simp

theorem toDigitsCore_fuel (b : Nat) (hb : 2 ≤ b) :
    ∀ (n f g : Nat) (acc : List Char), n < f → n < g →
      Nat.toDigitsCore b f n acc = Nat.toDigitsCore b g n acc := by
  intro n
  induction n using Nat.strong_induction_on with
  | _ n ih =>
    intro f g acc hf hg
    rcases f with _ | f
    · omega
    rcases g with _ | g
    · omega
    show (if n / b = 0 then _ else Nat.toDigitsCore b f (n / b) _)
        = (if n / b = 0 then _ else Nat.toDigitsCore b g (n / b) _)
    by_cases h : n / b = 0
    · simp [h]
    · simp only [h, ite_false]
      have hnpos : 0 < n := by
        rcases Nat.eq_zero_or_pos n with h0 | h0
        · rw [h0] at h; simp at h
        · exact h0
      have hlt : n / b < n := Nat.div_lt_self hnpos (by omega)
      exact ih (n / b) hlt f g _ (by omega) (by omega)

/-- The numeric value of an MSB-first decimal digit string. -/
def digitsVal (ds : List Char) : Nat :=
  ds.foldl (fun acc c => acc * 10 + (c.toNat - 48)) 0

theorem digitsVal_append_digit (ds : List Char) (c : Char) :
    digitsVal (ds ++ [c]) = digitsVal ds * 10 + (c.toNat - 48) := by
  unfold digitsVal
  rw [List.foldl_append]
  rfl

theorem digitChar_toNat_sub (m : Nat) (h : m < 10) :
    (Nat.digitChar m).toNat - 48 = m := by
  interval_cases m <;> decide

theorem digitsVal_toDigits (n : Nat) : digitsVal (Nat.toDigits 10 n) = n := by
  induction n using Nat.strong_induction_on with
  | _ n ih =>
    unfold Nat.toDigits
    show digitsVal (Nat.toDigitsCore 10 (n + 1) n []) = n
    by_cases h : n / 10 = 0
    · have : Nat.toDigitsCore 10 (n + 1) n [] = [Nat.digitChar (n % 10)] := by
        show (if n / 10 = 0 then Nat.digitChar (n % 10) :: []
            else Nat.toDigitsCore 10 n (n / 10) _) = _
        simp [h]
      rw [this]
      have hn10 : n < 10 := by omega
      have : n % 10 = n := Nat.mod_eq_of_lt hn10
      rw [this]
      show 0 * 10 + ((Nat.digitChar n).toNat - 48) = n
      rw [digitChar_toNat_sub n hn10]
      omega
    · have hnpos : 0 < n := by
        rcases Nat.eq_zero_or_pos n with h0 | h0
        · rw [h0] at h; simp at h
        · exact h0
      have hlt : n / 10 < n := Nat.div_lt_self hnpos (by omega)
      have step : Nat.toDigitsCore 10 (n + 1) n []
          = Nat.toDigitsCore 10 n (n / 10) [Nat.digitChar (n % 10)] := by
        show (if n / 10 = 0 then _ else Nat.toDigitsCore 10 n (n / 10) _) = _
        simp [h]
      rw [step, toDigitsCore_fuel 10 (by omega) (n / 10) n (n / 10 + 1) _ (by omega)
        (by omega), toDigitsCore_acc, ← Nat.toDigits]
      rw [digitsVal_append_digit, ih (n / 10) hlt,
        digitChar_toNat_sub (n % 10) (Nat.mod_lt n (by omega))]
      omega

theorem string_data_inj {s t : String} (h : s.data = t.data) : s = t := by
  cases s; cases t; exact congrArg String.mk h

theorem toString_nat_injective (m n : Nat) (h : toString m = toString n) : m = n := by
  have hm : toString m = (Nat.toDigits 10 m).asString := rfl
  have hn : toString n = (Nat.toDigits 10 n).asString := rfl
  rw [hm, hn, List.asString_inj] at h
  have := congrArg digitsVal h
  rwa [digitsVal_toDigits, digitsVal_toDigits] at this

theorem chunkId_injective (m n : Nat)
    (h : "chunk_" ++ toString m = "chunk_" ++ toString n) : m = n := by
  apply toString_nat_injective
  apply string_data_inj
  have hd := congrArg String.data h
  have hsplit : ∀ s : String, ("chunk_" ++ s).data = "chunk_".data ++ s.data := by
    intro s; rfl
  rw [hsplit, hsplit] at hd
  exact List.append_cancel_left hd

/-! ### The batch loop is equivalent to a single enumeration -/

theorem batch_flatten_eq (embed : String → E) (b : Nat) (hb : 1 ≤ b) :
    ∀ (k : Nat) (cs : List Chunk) (i : Nat), cs.length ≤ k * b →
      ((List.range' i k b).map fun s =>
          ((cs.drop (s - i)).take b).enum.map fun jc =>
            mkIndexRecord embed (s + jc.1) jc.2).flatten
        = cs.enum.map fun gc => mkIndexRecord embed (i + gc.1) gc.2 := by
  intro k
  induction k with
  | zero =>
    intro cs i hlen
    have : cs = [] := List.length_eq_zero.mp (by omega)
    subst this
    rfl
  | succ k ih =>
    intro cs i hlen
    rw [List.range'_succ, List.map_cons, List.flatten_cons, Nat.sub_self, List.drop_zero]
    by_cases hble : b ≤ cs.length
    · -- full first batch, recurse on the rest
      have htail :
          ((List.range' (i + b) k b).map fun s =>
              ((cs.drop (s - i)).take b).enum.map fun jc =>
                mkIndexRecord embed (s + jc.1) jc.2)
            = (List.range' (i + b) k b).map fun s =>
              (((cs.drop b).drop (s - (i + b))).take b).enum.map fun jc =>
                mkIndexRecord embed (s + jc.1) jc.2 := by
        apply List.map_congr_left
        intro s hs
        rcases List.mem_range'.mp hs with ⟨j, _, rfl⟩
        have h1 : (cs.drop b).drop (i + b + b * j - (i + b)) = cs.drop (i + b + b * j - i) := by
          rw [List.drop_drop]
          congr 1
          omega
        rw [h1]
      have hdroplen : (cs.drop b).length ≤ k * b := by
        rw [List.length_drop]
        have hmul : (k + 1) * b = k * b + b := by ring
        omega
      rw [htail, ih (cs.drop b) (i + b) hdroplen]
      have hlen_take : (cs.take b).length = b := by
        rw [List.length_take]
        omega
      have hRHS : (cs.enum.map fun gc => mkIndexRecord embed (i + gc.1) gc.2)
          = ((cs.take b).enum.map fun gc => mkIndexRecord embed (i + gc.1) gc.2)
            ++ ((cs.drop b).enum.map fun gc => mkIndexRecord embed (i + b + gc.1) gc.2) := by
        conv_lhs => rw [← List.take_append_drop b cs]
        rw [show (cs.take b ++ cs.drop b).enum
            = List.enumFrom 0 (cs.take b ++ cs.drop b) from rfl]
        rw [List.enumFrom_append, List.map_append]
        congr 1
        rw [show (0 : Nat) + (cs.take b).length = b from by rw [hlen_take]; omega]
        rw [← List.map_fst_add_enum_eq_enumFrom (cs.drop b) b, List.map_map]
        apply List.map_congr_left
        intro gc _
        show mkIndexRecord embed (i + (gc.1 + b)) gc.2
            = mkIndexRecord embed (i + b + gc.1) gc.2
        congr 1
        omega
      rw [hRHS]
    · -- short (final) batch: the remaining batches are all empty
      push_neg at hble
      have htake : cs.take b = cs := List.take_of_length_le (by omega)
      have hdrop : cs.drop b = [] := List.drop_eq_nil_of_le (by omega)
      have htail :
          ((List.range' (i + b) k b).map fun s =>
              ((cs.drop (s - i)).take b).enum.map fun jc =>
                mkIndexRecord embed (s + jc.1) jc.2).flatten = [] := by
        rw [List.flatten_eq_nil_iff]
        intro l hl
        rcases List.mem_map.mp hl with ⟨s, hs, rfl⟩
        rcases List.mem_range'.mp hs with ⟨j, _, rfl⟩
        have : cs.drop (i + b + b * j - i) = [] := List.drop_eq_nil_of_le (by omega)
        rw [this]
        simp
      rw [htake, htail, List.append_nil]

/-- One indexing run inserts exactly one record per chunk, in global
order, pairing position `g` with id `chunk_<g>`, independent of batching. -/
theorem indexRun_eq_enum (embed : String → E) (chunks : List Chunk) (b : Nat)
    (hb : 1 ≤ b) :
    indexRun embed chunks b = chunks.enum.map fun gc => mkIndexRecord embed gc.1 gc.2 := by
  unfold indexRun
  have hceil : chunks.length ≤ ((chunks.length + b - 1) / b) * b := by
    rcases Nat.exists_eq_add_of_le hb with ⟨b', rfl⟩
    set n := chunks.length with hn
    have heq := Nat.div_add_mod (n + b') (1 + b')
    have hlt : (n + b') % (1 + b') < 1 + b' := Nat.mod_lt _ (by omega)
    have hcomm : (n + (1 + b') - 1) / (1 + b') * (1 + b')
        = (1 + b') * ((n + b') / (1 + b')) := by
      rw [Nat.mul_comm]
      congr 2
      omega
    rw [hcomm]
    generalize hP : (1 + b') * ((n + b') / (1 + b')) = P at heq
    omega
  have := batch_flatten_eq embed b hb ((chunks.length + b - 1) / b) chunks 0 hceil
  simp only [Nat.sub_zero] at this
  rw [this]
  apply List.map_congr_left
  intro gc _
  show mkIndexRecord embed (0 + gc.1) gc.2 = mkIndexRecord embed gc.1 gc.2
  rw [Nat.zero_add]

/-! ### C3: deterministic, pairwise-distinct chunk ids -/

/-- C3: within one indexing run, the chunk at global position `g` receives
id `chunk_<g>`, and the assigned ids are pairwise distinct. -/
theorem indexRun_ids (embed : String → E) (chunks : List Chunk) (b : Nat)
    (hb : 1 ≤ b) :
    (indexRun embed chunks b).map IndexRecord.id
        = (List.range chunks.length).map (fun g => "chunk_" ++ toString g) ∧
    ((indexRun embed chunks b).map IndexRecord.id).Nodup := by
  have hids : (indexRun embed chunks b).map IndexRecord.id
      = (List.range chunks.length).map fun g => "chunk_" ++ toString g := by
    rw [indexRun_eq_enum embed chunks b hb, List.map_map]
    have : (IndexRecord.id ∘ fun gc : Nat × Chunk => mkIndexRecord embed gc.1 gc.2)
        = (fun g => "chunk_" ++ toString g) ∘ Prod.fst := by
      funext gc; rfl
    rw [this, ← List.map_map, List.enum_map_fst]
  refine ⟨hids, ?_⟩
  rw [hids]
  exact (List.nodup_range chunks.length).map
    (fun m n h => chunkId_injective m n h)

theorem indexRun_ids_witness :
    (indexRun (fun t => t.length)
        [{ text := "a", source := "a.py", type := "function" },
         { text := "b", source := "b.md", type := "markdown" },
         { text := "c", source := "c.py", type := "class" }] 2).map IndexRecord.id
      = ["chunk_0", "chunk_1", "chunk_2"] := by
  have h := (indexRun_ids (fun t : String => t.length)
    [{ text := "a", source := "a.py", type := "function" },
     { text := "b", source := "b.md", type := "markdown" },
     { text := "c", source := "c.py", type := "class" }] 2 (by omega)).1
  rw [h]
  decide

/-! ### C4: batch boundaries have no semantic effect -/

/-- C4: for a deterministic per-text embedding function, any two batch
sizes produce the same insertion sequence (ids, embeddings, documents and
metadata in the same global order), so the resulting index is identical. -/
theorem indexRun_batch_invariant (embed : String → E) (chunks : List Chunk)
    (b1 b2 : Nat) (h1 : 1 ≤ b1) (h2 : 1 ≤ b2) :
    indexRun embed chunks b1 = indexRun embed chunks b2 := by
  rw [indexRun_eq_enum embed chunks b1 h1, indexRun_eq_enum embed chunks b2 h2]

theorem indexRun_batch_invariant_witness :
    indexRun (fun t => t.length)
        [{ text := "a", source := "a.py", type := "function" },
         { text := "bb", source := "b.md", type := "markdown" },
         { text := "ccc", source := "c.py", type := "class" }] 2
      = indexRun (fun t => t.length)
        [{ text := "a", source := "a.py", type := "function" },
         { text := "bb", source := "b.md", type := "markdown" },
         { text := "ccc", source := "c.py", type := "class" }] 128 :=
  indexRun_batch_invariant (fun t => t.length) _ 2 128 (by omega) (by omega)

/-! ### C6: chunk counts and chunk types for Python files -/

theorem boundary_strip_ne_nil (l rest : List Char) (h : isBoundaryLine l = true) :
    stripList (l ++ rest) ≠ [] := by
  intro hnil
  have hall := (stripList_eq_nil_iff (l ++ rest)).mp hnil
  unfold isBoundaryLine at h
  rcases Bool.or_eq_true_iff.mp h with hp | hp
  · rcases List.isPrefixOf_iff_prefix.mp hp with ⟨t, ht⟩
    have hd : 'd' ∈ l ++ rest := by
      rw [← ht]
      simp [show "def ".data = ['d', 'e', 'f', ' '] from rfl]
    have := hall 'd' hd
    simp [pyIsSpace] at this
  · rcases List.isPrefixOf_iff_prefix.mp hp with ⟨t, ht⟩
    have hd : 'c' ∈ l ++ rest := by
      rw [← ht]
      simp [show "class ".data = ['c', 'l', 'a', 's', 's', ' '] from rfl]
    have := hall 'c' hd
    simp [pyIsSpace] at this

theorem groupBlocksGo_countKept (ls : List (List Char)) :
    ∀ cur : List Char,
      (groupBlocksGo cur ls).countP (fun b => !decide (stripList b = []))
        = ls.countP isBoundaryLine
          + (if stripList (cur ++ (ls.takeWhile fun l => !isBoundaryLine l).flatten) = []
             then 0 else 1) := by
  induction ls with
  | nil =>
    intro cur
    simp only [groupBlocksGo, List.countP_nil, List.takeWhile_nil, List.flatten_nil,
      List.append_nil, List.countP_cons, Nat.zero_add]
    by_cases h : stripList cur = [] <;> simp [h]
  | cons l rest ih =>
    intro cur
    simp only [groupBlocksGo]
    by_cases hb : isBoundaryLine l
    · rw [if_pos hb, List.countP_cons, ih l, List.countP_cons, List.takeWhile_cons]
      have hkeep : stripList (l ++ (rest.takeWhile fun x => !isBoundaryLine x).flatten)
          ≠ [] := boundary_strip_ne_nil l _ hb
      by_cases h : stripList cur = [] <;> simp [h, hkeep, hb]
    · rw [if_neg hb, ih (cur ++ l), List.countP_cons, List.takeWhile_cons]
      simp [hb, List.append_assoc]

/-- The claim's typing of the leading block is false: a file whose
top-level code is an indented `def` (no line starts with `def ` or
`class ` at column 0, so there are no boundaries and the single chunk is
the leading block) gets type `"function"`, not `"top-level"`, because the
classification looks at the stripped block text. -/
theorem chunk_py_leading_block_not_top_level :
    (linesKeepNL "  def f(): pass".data).countP isBoundaryLine = 0 ∧
    (chunk_py "x.py" "  def f(): pass").map Chunk.type = ["function"] := by
  refine ⟨by decide, by decide⟩

/-- C6 (amended): the chunk count for a Python file equals the number of
top-level `def `/`class ` boundary lines, plus one iff there is
non-whitespace content before the first boundary; and every chunk is
typed by its stripped text: `"function"` if it starts with `def `,
`"class "` if it starts with `class `, `"top-level"` otherwise (so a kept
leading block is `"top-level"` unless its stripped text itself starts
with `def ` or `class `). -/
theorem chunk_py_count_and_types (p content : String) :
    (chunk_py p content).length
      = (linesKeepNL content.data).countP isBoundaryLine
        + (if stripList ((linesKeepNL content.data).takeWhile
              (fun l => !isBoundaryLine l)).flatten = [] then 0 else 1) ∧
    (∀ c ∈ chunk_py p content,
      c.type = if "def ".data.isPrefixOf c.text.data then "function"
               else if "class ".data.isPrefixOf c.text.data then "class"
               else "top-level") := by
  constructor
  · unfold chunk_py
    rw [List.length_filterMap_eq_countP]
    have hcount :
        (pySplitBlocks content.data).countP (fun b => (pyBlockChunk p b).isSome)
          = (pySplitBlocks content.data).countP (fun b => !decide (stripList b = [])) := by
      apply List.countP_congr
      intro b _
      unfold pyBlockChunk
      by_cases h : stripList b = [] <;> simp [h]
    rw [hcount]
    unfold pySplitBlocks
    rw [groupBlocksGo_countKept (linesKeepNL content.data) []]
    simp
  · intro c hc
    unfold chunk_py at hc
    rcases List.mem_filterMap.mp hc with ⟨b, _, hf⟩
    unfold pyBlockChunk at hf
    by_cases h : stripList b = []
    · simp [h] at hf
    · simp only [h, if_neg] at hf
      cases hf
      rfl

theorem chunk_py_count_and_types_witness :
    Chunk.type { text := "def f():\n    pass", source := "a.py", type := "function" }
      = "function" := by
  have h := (chunk_py_count_and_types "a.py" "x = 1\ndef f():\n    pass\n").2
    { text := "def f():\n    pass", source := "a.py", type := "function" } (by decide)
  rw [h]
  decide

/-! ### C10: chunk_md consumes exactly one `#` at a heading split -/

theorem matchBlank_not_space (c : Char) (t : List Char) (h : pyIsSpace c = false) :
    matchBlank (c :: t) = none := by
  unfold matchBlank
  rw [List.takeWhile_cons, h]
  rfl

/-- On newline-free input with the line-start flag off, the split machine
emits everything as one segment. -/
theorem splitGoF_no_nl (useHash : Bool) :
    ∀ (cs : List Char) (f : Nat) (acc : List Char), cs.length ≤ f →
      (∀ c ∈ cs, c ≠ '\n') →
      splitGoF useHash f false acc cs = [acc ++ cs] := by
  intro cs
  induction cs with
  | nil =>
    intro f acc _ _
    cases f <;> simp [splitGoF]
  | cons c cs ih =>
    intro f acc hf hnl
    rcases f with _ | f
    · simp at hf
    have hc : c ≠ '\n' := hnl c (by simp)
    show (if useHash && false && (c = '#') then _
        else if c = '\n' then _ else splitGoF useHash f false (acc ++ [c]) cs) = _
    rw [show (useHash && false && (c = '#')) = false from by simp]
    simp only [Bool.false_eq_true, if_false]
    rw [if_neg hc, ih f (acc ++ [c]) (by simpa using hf) (fun x hx => hnl x (by simp [hx]))]
    simp

theorem splitGoF_line_nl_hash (t : List Char) (ht : ∀ c ∈ t, c ≠ '\n') :
    ∀ (L : List Char) (f : Nat) (b : Bool) (acc : List Char),
      L.length + t.length + 2 ≤ f →
      (∀ c ∈ L, c ≠ '\n') → (b = true → L.head? ≠ some '#') →
      splitGoF true f b acc (L ++ '\n' :: '#' :: t) = [acc ++ L ++ ['\n'], t] := by
  intro L
  induction L with
  | nil =>
    intro f b acc hf _ _
    rcases f with _ | f
    · simp at hf
    show (if true && b && ('\n' = '#') then _
        else if ('\n' : Char) = '\n' then _ else _) = _
    rw [show (true && b && (('\n' : Char) = '#')) = false from by simp]
    simp only [Bool.false_eq_true, if_false, if_pos rfl]
    rw [show matchBlank ('#' :: t) = none from matchBlank_not_space '#' t rfl]
    show splitGoF true f true (acc ++ ['\n']) ('#' :: t) = _
    rcases f with _ | f
    · simp at hf
    show (if true && true && ('#' = '#') then
        (acc ++ ['\n']) :: splitGoF true f false [] t else _) = _
    rw [show (true && true && (('#' : Char) = '#')) = true from by simp]
    simp only [if_true]
    rw [splitGoF_no_nl true t f [] (by simp at hf; omega) ht]
    simp
  | cons a L ih =>
    intro f b acc hf hnlL hhead
    rcases f with _ | f
    · simp at hf
    have ha : a ≠ '\n' := hnlL a (by simp)
    have ha2 : (true && b && (a = '#')) = false := by
      rcases b with _ | _
      · simp
      · have : a ≠ '#' := by
          intro hEq
          exact hhead rfl (by simp [hEq])
        simp [this]
    show (if true && b && (a = '#') then _
        else if a = '\n' then _
        else splitGoF true f false (acc ++ [a]) (L ++ '\n' :: '#' :: t)) = _
    rw [ha2]
    simp only [Bool.false_eq_true, if_false]
    rw [if_neg ha,
      ih f false (acc ++ [a]) (by simp at hf ⊢; omega)
        (fun x hx => hnlL x (by simp [hx])) (by simp)]
    simp

/-- C10: when `chunk_md` splits at a line-start `#`, exactly that one `#`
is consumed: a single heading line `#<t>` yields the chunk `strip(t)`
(so `# Title` gives `Title` and `## Sub` gives `# Sub`), and
`<L>\n#<t>` yields the chunks `strip(L)` and `strip(t)` — the heading
marker never survives intact in the chunk text. -/
theorem chunk_md_consumes_one_hash (p : String) (L t : List Char)
    (hL : ∀ c ∈ L, c ≠ '\n') (hLhead : L.head? ≠ some '#')
    (ht : ∀ c ∈ t, c ≠ '\n')
    (hLs : stripList L ≠ []) (hts : stripList t ≠ []) :
    chunk_md p (String.mk ('#' :: t))
        = [{ text := String.mk (stripList t), source := p, type := "markdown" }] ∧
    chunk_md p (String.mk (L ++ '\n' :: '#' :: t))
        = [{ text := String.mk (stripList L), source := p, type := "markdown" },
           { text := String.mk (stripList t), source := p, type := "markdown" }] := by
  constructor
  · unfold chunk_md
    have hsplit : mdSplit ('#' :: t) = [[], t] := by
      unfold mdSplit
      show splitGoF true (t.length + 1) true [] ('#' :: t) = [[], t]
      show (if true && true && ('#' = '#') then
          [] :: splitGoF true t.length false [] t else _) = _
      rw [show (true && true && (('#' : Char) = '#')) = true from by simp]
      simp only [if_true]
      rw [splitGoF_no_nl true t t.length [] le_rfl ht]
      simp
    rw [show (String.mk ('#' :: t)).data = '#' :: t from rfl, hsplit]
    have hnil : stripList ([] : List Char) = [] := rfl
    simp [hnil, hts]
  · unfold chunk_md
    have hsplit : mdSplit (L ++ '\n' :: '#' :: t) = [L ++ ['\n'], t] := by
      unfold mdSplit
      apply splitGoF_line_nl_hash t ht L _ true []
      · simp; omega
      · exact hL
      · intro _; exact hLhead
    rw [show (String.mk (L ++ '\n' :: '#' :: t)).data = L ++ '\n' :: '#' :: t from rfl,
      hsplit]
    have hLnl : stripList (L ++ ['\n']) = stripList L := stripList_append_ws L '\n' rfl
    simp only [List.filterMap_cons, hLnl]
    simp [hLs, hts]

theorem chunk_md_consumes_one_hash_witness :
    chunk_md "m.md" (String.mk ('#' :: "# Sub".data))
        = [{ text := String.mk (stripList "# Sub".data), source := "m.md",
             type := "markdown" }] ∧
    chunk_md "m.md" (String.mk ("Intro".data ++ '\n' :: '#' :: " Title".data))
        = [{ text := String.mk (stripList "Intro".data), source := "m.md",
             type := "markdown" },
           { text := String.mk (stripList " Title".data), source := "m.md",
             type := "markdown" }] := by
  have h := chunk_md_consumes_one_hash "m.md" "Intro".data "# Sub".data
    (by decide) (by decide) (by decide) (by decide) (by decide)
  have h2 := chunk_md_consumes_one_hash "m.md" "Intro".data " Title".data
    (by decide) (by decide) (by decide) (by decide) (by decide)
  exact ⟨h.1, h2.2⟩

/-! ### C2: the chunk log round-trips exactly -/

theorem charOfNat_toNat (c : Char) (h : c.toNat < 55296) : Char.ofNat c.toNat = c := by
  obtain ⟨⟨⟨n, hn⟩⟩, hv⟩ := c
  have hvalid : Nat.isValidChar n := Or.inl h
  show Char.ofNat n = _
  unfold Char.ofNat
  rw [dif_pos hvalid]
  rfl

theorem unhex_hexDigitChar (m : Nat) (hm : m < 16) : unhex (hexDigitChar m) = some m := by
  interval_cases m <;> decide

theorem hexDigitChar_ne_nl (m : Nat) (hm : m < 16) : hexDigitChar m ≠ '\n' := by
  interval_cases m <;> decide

theorem escChar_mem_ne_nl (c x : Char) (hx : x ∈ escChar c) : x ≠ '\n' := by
  unfold escChar at hx
  split_ifs at hx with h1 h2 h3 h4 h5 h6 h7 h8
  · fin_cases hx <;> decide
  · fin_cases hx <;> decide
  · fin_cases hx <;> decide
  · fin_cases hx <;> decide
  · fin_cases hx <;> decide
  · fin_cases hx <;> decide
  · fin_cases hx <;> decide
  · fin_cases hx
    · decide
    · decide
    · decide
    · decide
    · exact hexDigitChar_ne_nl (c.toNat / 16) (by omega)
    · exact hexDigitChar_ne_nl (c.toNat % 16) (Nat.mod_lt _ (by omega))
  · rcases List.mem_singleton.mp hx with rfl
    exact h3

theorem mem_escString (s : List Char) (x : Char) :
    x ∈ escString s ↔ ∃ c ∈ s, x ∈ escChar c := by
  induction s with
  | nil => simp [escString]
  | cons c s ih =>
    show x ∈ escChar c ++ escString s ↔ _
    rw [List.mem_append, ih]
    constructor
    · rintro (h | ⟨c', hc', hx⟩)
      · exact ⟨c, by simp, h⟩
      · exact ⟨c', by simp [hc'], hx⟩
    · rintro ⟨c', hc', hx⟩
      rcases List.mem_cons.mp hc' with rfl | hc'
      · exact Or.inl hx
      · exact Or.inr ⟨c', hc', hx⟩

theorem serChunk_ne_nl (c : Chunk) : ∀ x ∈ serChunk c, x ≠ '\n' := by
  intro x hx
  unfold serChunk at hx
  simp only [List.append_assoc, List.mem_append] at hx
  rcases hx with h | h | h | h | h | h | h
  · exact (by decide : ∀ y ∈ "\x7b\"text\": \"".data, y ≠ '\n') x h
  · exact escChar_mem_ne_nl _ x ((mem_escString _ x).mp h).choose_spec.2
  · exact (by decide : ∀ y ∈ "\", \"source\": \"".data, y ≠ '\n') x h
  · exact escChar_mem_ne_nl _ x ((mem_escString _ x).mp h).choose_spec.2
  · exact (by decide : ∀ y ∈ "\", \"type\": \"".data, y ≠ '\n') x h
  · exact escChar_mem_ne_nl _ x ((mem_escString _ x).mp h).choose_spec.2
  · exact (by decide : ∀ y ∈ "\"\x7d".data, y ≠ '\n') x h

theorem linesKeepNLGo_line (l : List Char) :
    ∀ (acc rest : List Char), (∀ x ∈ l, x ≠ '\n') →
      linesKeepNLGo acc (l ++ '\n' :: rest)
        = (acc ++ l ++ ['\n']) :: linesKeepNLGo [] rest := by
  induction l with
  | nil =>
    intro acc rest _
    show (if ('\n' : Char) = '\n' then (acc ++ ['\n']) :: linesKeepNLGo [] rest
        else _) = _
    simp
  | cons c l ih =>
    intro acc rest hnl
    have hc : c ≠ '\n' := hnl c (by simp)
    show (if c = '\n' then _ else linesKeepNLGo (acc ++ [c]) (l ++ '\n' :: rest)) = _
    rw [if_neg hc, ih (acc ++ [c]) rest (fun x hx => hnl x (by simp [hx]))]
    simp

theorem linesKeepNL_writeChunks (chunks : List Chunk) :
    linesKeepNL (writeChunks chunks) = chunks.map fun c => serChunk c ++ ['\n'] := by
  induction chunks with
  | nil => rfl
  | cons c rest ih =>
    unfold writeChunks linesKeepNL
    rw [List.map_cons, List.flatten_cons, List.append_assoc,
      show ['\n'] ++ (rest.map fun c => serChunk c ++ ['\n']).flatten
        = '\n' :: (rest.map fun c => serChunk c ++ ['\n']).flatten from rfl,
      linesKeepNLGo_line (serChunk c) [] _ (serChunk_ne_nl c)]
    congr 1

theorem parseStrBody_escString (s : List Char) :
    ∀ rest : List Char, parseStrBody (escString s ++ '"' :: rest) = some (s, rest) := by
  induction s with
  | nil =>
    intro rest
    rw [show escString [] ++ '"' :: rest = '"' :: rest from rfl]
    unfold parseStrBody
    simp
  | cons c s ih =>
    intro rest
    have hesc : escString (c :: s) = escChar c ++ escString s := rfl
    rw [hesc, List.append_assoc]
    unfold escChar
    split_ifs with h1 h2 h3 h4 h5 h6 h7 h8
    · subst h1; unfold parseStrBody; simp [escTable, ih]
    · subst h2; unfold parseStrBody; simp [escTable, ih]
    · subst h3; unfold parseStrBody; simp [escTable, ih]
    · subst h4; unfold parseStrBody; simp [escTable, ih]
    · subst h5; unfold parseStrBody; simp [escTable, ih]
    · subst h6; unfold parseStrBody; simp [escTable, ih]
    · subst h7; unfold parseStrBody; simp [escTable, ih]
    · -- the `\u00XX` escape for the remaining control characters
      have hdiv : c.toNat / 16 < 16 := by omega
      have hmod : c.toNat % 16 < 16 := Nat.mod_lt _ (by omega)
      simp only [List.cons_append, List.nil_append]
      unfold parseStrBody
      simp [show unhex '0' = some 0 from by decide, unhex_hexDigitChar _ hdiv,
        unhex_hexDigitChar _ hmod, ih]
      rw [show c.toNat / 16 * 16 + c.toNat % 16 = c.toNat from by
        have := Nat.div_add_mod c.toNat 16
        omega]
      exact charOfNat_toNat c (by omega)
    · -- ordinary character, passed through unescaped
      simp only [List.cons_append, List.nil_append]
      unfold parseStrBody
      simp [escTable, ih, h1, h2, h8]

theorem expectLit_append (pat X : List Char) : expectLit pat (pat ++ X) = some X := by
  unfold expectLit
  rw [if_pos (List.isPrefixOf_iff_prefix.mpr (List.prefix_append pat X)),
    List.drop_left]

theorem parseChunkLine_ser (c : Chunk) :
    parseChunkLine (serChunk c ++ ['\n']) = some c := by
  have hline : serChunk c ++ ['\n']
      = "\x7b\"text\": \"".data
        ++ (escString c.text.data
          ++ '"' :: (", \"source\": \"".data
            ++ (escString c.source.data
              ++ '"' :: (", \"type\": \"".data
                ++ (escString c.type.data
                  ++ '"' :: ("\x7d".data ++ ['\n'])))))) := by
    unfold serChunk
    simp only [List.append_assoc]
    rfl
  unfold parseChunkLine
  rw [hline, expectLit_append, Option.bind_eq_bind, Option.some_bind,
    parseStrBody_escString]
  show (do
      let r3 ← expectLit ", \"source\": \"".data (", \"source\": \"".data ++ _)
      let (s, r4) ← parseStrBody r3
      let r5 ← expectLit ", \"type\": \"".data r4
      let (ty, r6) ← parseStrBody r5
      let r7 ← expectLit "\x7d".data r6
      if r7.all pyIsSpace then
        pure { text := String.mk c.text.data, source := String.mk s, type := String.mk ty }
      else none) = some c
  rw [expectLit_append]
  show (do
      let (s, r4) ← parseStrBody (escString c.source.data ++ '"' :: _)
      let r5 ← expectLit ", \"type\": \"".data r4
      let (ty, r6) ← parseStrBody r5
      let r7 ← expectLit "\x7d".data r6
      if r7.all pyIsSpace then
        pure { text := String.mk c.text.data, source := String.mk s, type := String.mk ty }
      else none) = some c
  rw [parseStrBody_escString]
  show (do
      let r5 ← expectLit ", \"type\": \"".data (", \"type\": \"".data ++ _)
      let (ty, r6) ← parseStrBody r5
      let r7 ← expectLit "\x7d".data r6
      if r7.all pyIsSpace then
        pure { text := String.mk c.text.data, source := String.mk c.source.data,
               type := String.mk ty }
      else none) = some c
  rw [expectLit_append]
  show (do
      let (ty, r6) ← parseStrBody (escString c.type.data ++ '"' :: _)
      let r7 ← expectLit "\x7d".data r6
      if r7.all pyIsSpace then
        pure { text := String.mk c.text.data, source := String.mk c.source.data,
               type := String.mk ty }
      else none) = some c
  rw [parseStrBody_escString]
  show (do
      let r7 ← expectLit "\x7d".data ("\x7d".data ++ ['\n'])
      if r7.all pyIsSpace then
        pure { text := String.mk c.text.data, source := String.mk c.source.data,
               type := String.mk c.type.data }
      else none) = some c
  rw [expectLit_append]
  show (if (['\n'].all pyIsSpace) then
      some { text := String.mk c.text.data, source := String.mk c.source.data,
             type := String.mk c.type.data }
    else none) = some c
  rw [if_pos (by decide)]

/-- C2: writing any chunk sequence to the chunk log (one
`json.dumps` record per line) and reading it back (`json.loads` per line)
recovers exactly the original records — no record is lost, none merge,
and embedded newlines survive because they are escaped. -/
theorem chunk_log_round_trip (chunks : List Chunk) :
    readChunks (writeChunks chunks) = some chunks := by
  unfold readChunks
  rw [linesKeepNL_writeChunks]
  induction chunks with
  | nil => rfl
  | cons c rest ih =>
    rw [List.map_cons, List.mapM_cons, parseChunkLine_ser]
    rw [show ((rest.map fun c => serChunk c ++ ['\n']).mapM parseChunkLine)
        = some rest from ih]
    rfl

end RagPipeline
